import Mathlib

/-!
# Verification of the component resolution and validation engine

A shallow embedding, in Lean 4, of the core of the
`metalsmith-bundled-components` plugin:

* `src/utils/dependency-resolver.js` — `resolveAllDependencies`,
  `filterNeededComponents`;
* `src/utils/requirement-validator.js` — `validateRequirements`;
* `src/utils/component-discovery.js` — `createComponentMap`, `loadComponent`;
* `src/utils/template-parser.js` — `detectUsedComponents`,
  `parseTemplateFile`, `extractComponentName`, `scanLayoutFiles`;
* `src/utils/validation.js` — `validateProperty`, `validateSection`,
  `validateSections` and their helpers.

JavaScript arrays become Lean lists, `Map`s become insertion-ordered
association lists, `Set`s become duplicate-free lists in insertion order,
and dynamically typed page data becomes the inductive `JValue` type with an
explicit `undef` constructor (JS `undefined`).  Exceptions (`throw`) become
`Except`.  The unbounded `while` loop of `resolveAllDependencies` is run on
an explicit fuel that is proved sufficient (`resolve_fuel_sufficient`), so
the executable definition computes exactly the state in which the loop's
queue has emptied.
-/

/-- A component as consumed by the dependency resolver and the requirement
validator: the `name` field plus the two alternative dependency-list fields
of the manifest.  `requires` and `dependencies` are `Option`s because the
JavaScript code distinguishes a present list (even an empty one, which is
truthy in JS) from an absent field via `component.requires ||
component.dependencies || []`. -/
structure Component where
  name : String
  requires : Option (List String) := none
  dependencies : Option (List String) := none
deriving DecidableEq, Repr

/-- `Map.get` on an insertion-ordered association list (JS `Map` keys are
unique, so first-match lookup agrees with `Map.prototype.get`). -/
def mapGet {α : Type} : List (String × α) → String → Option α
  | [], _ => none
  | (k', v) :: rest, k => if k' = k then some v else mapGet rest k

/-- `component.requires || component.dependencies || []`
(`dependency-resolver.js` line 41, `requirement-validator.js` line 23):
a present `requires` list wins even when empty, because an empty JS array
is truthy. -/
def reqList (c : Component) : List String :=
  match c.requires with
  | some r => r
  | none =>
    match c.dependencies with
    | some d => d
    | none => []

/-- Requirement lists read for one popped name: a name absent from the
component map is skipped (`if (!component) continue`), contributing no
requirements. -/
def getReqs (componentMap : List (String × Component)) (name : String) :
    List String :=
  match mapGet componentMap name with
  | none => []
  | some c => reqList c

/-- The two locals of `resolveAllDependencies`: `resolved` (a JS `Set`,
modelled as a duplicate-free insertion-ordered list) and `queue` (a JS
array popped from the front by `queue.shift()`). -/
structure RState where
  resolved : List String
  queue : List String
deriving DecidableEq, Repr

/-- The body of `requirements.forEach(...)` for a single required name:
`if (!resolved.has(r)) { resolved.add(r); queue.push(r); }`. -/
def pushReq (s : RState) (r : String) : RState :=
  if r ∈ s.resolved then s else ⟨s.resolved ++ [r], s.queue ++ [r]⟩

/-- `requirements.forEach(...)` over a whole requirement list. -/
def enqueueAll (s : RState) (rs : List String) : RState :=
  rs.foldl pushReq s

/-- One iteration of the `while (queue.length > 0)` loop of
`resolveAllDependencies`; the identity once the queue is empty. -/
def stepResolve (componentMap : List (String × Component)) (s : RState) :
    RState :=
  match s.queue with
  | [] => s
  | currentName :: rest => enqueueAll ⟨s.resolved, rest⟩ (getReqs componentMap currentName)

/-- `new Set(iterable)`: the elements of a list with duplicates removed,
keeping first occurrences, in insertion order. -/
def jsSetOf (l : List String) : List String :=
  l.foldl (fun acc x => if x ∈ acc then acc else acc ++ [x]) []

/-- `const resolved = new Set(usedComponents); const queue =
[...usedComponents];` — the state on entry to the loop.  The input list is
the element sequence of the caller's `Set` (so duplicate-free in intended
use, but the model accepts any list). -/
def initResolveState (usedComponents : List String) : RState :=
  ⟨jsSetOf usedComponents, usedComponents⟩

/-- Every name appearing in any component's requirement list, in table
order.  Only these names can ever be enqueued after the initial seeding;
this bounds the loop. -/
def allReqNames (componentMap : List (String × Component)) : List String :=
  (componentMap.map fun p => reqList p.2).flatten

/-- An upper bound on the number of loop iterations
(pops ≤ initial queue length + total enqueues, and every enqueue
introduces a name from some requirement list that was not yet resolved). -/
def resolveFuel (usedComponents : List String)
    (componentMap : List (String × Component)) : Nat :=
  usedComponents.length + usedComponents.length +
    (allReqNames componentMap).length + 1

/-- `resolveAllDependencies` (`dependency-resolver.js` lines 27–52): run
the loop to completion; `resolve_fuel_sufficient` below proves the fuel
outlasts the loop, so this is the exact final value of `resolved`. -/
def resolveAllDependencies (usedComponents : List String)
    (componentMap : List (String × Component)) : List String :=
  ((stepResolve componentMap)^[resolveFuel usedComponents componentMap]
    (initResolveState usedComponents)).resolved

/-- `filterNeededComponents` (`dependency-resolver.js` lines 64–68). -/
def filterNeededComponents (allComponents : List Component)
    (neededComponents : List String) : List Component :=
  allComponents.filter fun component => component.name ∈ neededComponents

section ResolverExamples

/-- The cyclic table `a→b→a`. -/
def cycleMap : List (String × Component) :=
  [("a", { name := "a", requires := some ["b"] }),
   ("b", { name := "b", requires := some ["a"] })]

/-- The diamond `hero→{button,image}`, `button→icon`, `image→icon`. -/
def diamondMap : List (String × Component) :=
  [("hero", { name := "hero", requires := some ["button", "image"] }),
   ("button", { name := "button", requires := some ["icon"] }),
   ("image", { name := "image", requires := some ["icon"] }),
   ("icon", { name := "icon", requires := some [] })]

/-- `hero` requires a component that is not in the table. -/
def danglingMap : List (String × Component) :=
  [("hero", { name := "hero", requires := some ["missing"] })]

end ResolverExamples

/-! ## Basic lemmas about the resolver's building blocks -/

theorem mapGet_mem {α : Type} {m : List (String × α)} {k : String} {v : α}
    (h : mapGet m k = some v) : (k, v) ∈ m := by
  induction m with
  | nil => simp [mapGet] at h
  | cons p rest ih =>
    obtain ⟨k', v'⟩ := p
    by_cases hk : k' = k
    · subst hk
      simp [mapGet] at h
      simp [h]
    · simp [mapGet, hk] at h
      exact List.mem_cons_of_mem _ (ih h)

theorem getReqs_subset_allReqNames {m : List (String × Component)}
    {name x : String} (h : x ∈ getReqs m name) : x ∈ allReqNames m := by
  unfold getReqs at h
  cases hg : mapGet m name with
  | none => rw [hg] at h; simp at h
  | some c =>
    rw [hg] at h
    have hmem := mapGet_mem hg
    unfold allReqNames
    rw [List.mem_flatten]
    exact ⟨reqList c, List.mem_map.mpr ⟨(name, c), hmem, rfl⟩, h⟩

theorem jsSetOf_aux_mem (l acc : List String) (x : String) :
    x ∈ l.foldl (fun acc x => if x ∈ acc then acc else acc ++ [x]) acc ↔
      x ∈ acc ∨ x ∈ l := by
  induction l generalizing acc with
  | nil => simp
  | cons y rest ih =>
    simp only [List.foldl_cons]
    by_cases hy : y ∈ acc
    · simp only [if_pos hy, ih]
      constructor
      · rintro (h | h)
        · exact Or.inl h
        · exact Or.inr (List.mem_cons_of_mem _ h)
      · rintro (h | h)
        · exact Or.inl h
        · rcases List.mem_cons.mp h with rfl | h
          · exact Or.inl hy
          · exact Or.inr h
    · simp only [if_neg hy, ih, List.mem_append, List.mem_singleton,
        List.mem_cons]
      tauto

theorem mem_jsSetOf (l : List String) (x : String) :
    x ∈ jsSetOf l ↔ x ∈ l := by
  unfold jsSetOf
  rw [jsSetOf_aux_mem]
  simp

theorem jsSetOf_aux_nodup (l acc : List String) (h : acc.Nodup) :
    (l.foldl (fun acc x => if x ∈ acc then acc else acc ++ [x]) acc).Nodup := by
  induction l generalizing acc with
  | nil => simpa
  | cons y rest ih =>
    simp only [List.foldl_cons]
    by_cases hy : y ∈ acc
    · rw [if_pos hy]; exact ih acc h
    · rw [if_neg hy]
      refine ih _ ?_
      simpa [List.nodup_append] using ⟨h, hy⟩

theorem jsSetOf_nodup (l : List String) : (jsSetOf l).Nodup :=
  jsSetOf_aux_nodup l [] List.nodup_nil

theorem jsSetOf_aux_of_disjoint (l acc : List String) (hl : l.Nodup)
    (hd : ∀ x ∈ l, x ∉ acc) :
    l.foldl (fun acc x => if x ∈ acc then acc else acc ++ [x]) acc =
      acc ++ l := by
  induction l generalizing acc with
  | nil => simp
  | cons y rest ih =>
    simp only [List.foldl_cons]
    have hy : y ∉ acc := hd y (List.mem_cons_self y rest)
    rw [if_neg hy]
    rw [ih (acc ++ [y]) (List.Nodup.of_cons hl)]
    · simp
    · intro x hx
      simp only [List.mem_append, List.mem_singleton]
      rintro (h | rfl)
      · exact hd x (List.mem_cons_of_mem _ hx) h
      · exact (List.nodup_cons.mp hl).1 hx

theorem jsSetOf_eq_self {l : List String} (h : l.Nodup) : jsSetOf l = l := by
  unfold jsSetOf
  rw [jsSetOf_aux_of_disjoint l [] h (by simp)]
  simp

/-! ## The resolver loop invariant and its preservation -/

/-- Invariant of the `resolveAllDependencies` loop: the `resolved` set is
duplicate-free, every queued name has already been added to `resolved`,
and every resolved name either seeded the loop or occurs in some
requirement list. -/
structure RInv (used : List String) (m : List (String × Component))
    (s : RState) : Prop where
  nodup : s.resolved.Nodup
  queue_sub : ∀ x ∈ s.queue, x ∈ s.resolved
  resolved_sub : ∀ x ∈ s.resolved, x ∈ used ++ allReqNames m

/-- The integer loop measure: queue length plus the number of names that
can still be added to `resolved`. -/
def muR (used : List String) (m : List (String × Component)) (s : RState) : ℤ :=
  (s.queue.length : ℤ) + ((used ++ allReqNames m).toFinset.card : ℤ) -
    (s.resolved.length : ℤ)

theorem pushReq_resolved_mono {s : RState} {r x : String}
    (h : x ∈ s.resolved) : x ∈ (pushReq s r).resolved := by
  unfold pushReq
  split <;> simp [h]

theorem pushReq_queue_mono {s : RState} {r x : String}
    (h : x ∈ s.queue) : x ∈ (pushReq s r).queue := by
  unfold pushReq
  split <;> simp [h]

theorem pushReq_mem_resolved (s : RState) (r : String) :
    r ∈ (pushReq s r).resolved := by
  unfold pushReq
  split
  · assumption
  · simp

theorem pushReq_resolved_cases {s : RState} {r x : String}
    (h : x ∈ (pushReq s r).resolved) :
    x ∈ s.resolved ∨ x ∈ (pushReq s r).queue := by
  by_cases hmem : r ∈ s.resolved
  · rw [pushReq, if_pos hmem] at h
    exact Or.inl h
  · rw [pushReq, if_neg hmem] at h ⊢
    simp only [List.mem_append, List.mem_singleton] at h
    rcases h with h | rfl
    · exact Or.inl h
    · simp

theorem pushReq_inv {used : List String} {m : List (String × Component)}
    {s : RState} {r : String} (hI : RInv used m s)
    (hr : r ∈ used ++ allReqNames m) : RInv used m (pushReq s r) := by
  unfold pushReq
  split
  · exact hI
  · constructor
    · simpa [List.nodup_append] using ⟨hI.nodup, by assumption⟩
    · intro x hx
      simp only [List.mem_append, List.mem_singleton] at hx ⊢
      rcases hx with h | rfl
      · exact Or.inl (hI.queue_sub x h)
      · exact Or.inr rfl
    · intro x hx
      simp only [List.mem_append, List.mem_singleton] at hx
      rcases hx with h | rfl
      · exact hI.resolved_sub x h
      · exact hr

theorem pushReq_mu (used : List String) (m : List (String × Component))
    (s : RState) (r : String) : muR used m (pushReq s r) = muR used m s := by
  unfold pushReq muR
  split
  · rfl
  · simp only [List.length_append, List.length_singleton]
    push_cast
    ring

theorem enqueueAll_resolved_mono {s : RState} {rs : List String} {x : String}
    (h : x ∈ s.resolved) : x ∈ (enqueueAll s rs).resolved := by
  induction rs generalizing s with
  | nil => simpa [enqueueAll]
  | cons r rest ih =>
    simp only [enqueueAll, List.foldl_cons] at *
    exact ih (pushReq_resolved_mono h)

theorem enqueueAll_queue_mono {s : RState} {rs : List String} {x : String}
    (h : x ∈ s.queue) : x ∈ (enqueueAll s rs).queue := by
  induction rs generalizing s with
  | nil => simpa [enqueueAll]
  | cons r rest ih =>
    simp only [enqueueAll, List.foldl_cons] at *
    exact ih (pushReq_queue_mono h)

theorem enqueueAll_mem_resolved {s : RState} {rs : List String} {r : String}
    (h : r ∈ rs) : r ∈ (enqueueAll s rs).resolved := by
  induction rs generalizing s with
  | nil => simp at h
  | cons r' rest ih =>
    simp only [enqueueAll, List.foldl_cons] at *
    rcases List.mem_cons.mp h with rfl | h
    · exact enqueueAll_resolved_mono (pushReq_mem_resolved s r)
    · exact ih h

theorem enqueueAll_resolved_cases {s : RState} {rs : List String} {x : String}
    (h : x ∈ (enqueueAll s rs).resolved) :
    x ∈ s.resolved ∨ x ∈ (enqueueAll s rs).queue := by
  induction rs generalizing s with
  | nil => exact Or.inl (by simpa [enqueueAll] using h)
  | cons r rest ih =>
    simp only [enqueueAll, List.foldl_cons] at *
    rcases ih h with h' | h'
    · rcases pushReq_resolved_cases h' with h'' | h''
      · exact Or.inl h''
      · exact Or.inr (enqueueAll_queue_mono h'')
    · exact Or.inr h'

theorem enqueueAll_inv {used : List String} {m : List (String × Component)}
    {s : RState} {rs : List String} (hI : RInv used m s)
    (hrs : ∀ r ∈ rs, r ∈ used ++ allReqNames m) :
    RInv used m (enqueueAll s rs) := by
  induction rs generalizing s with
  | nil => simpa [enqueueAll]
  | cons r rest ih =>
    simp only [enqueueAll, List.foldl_cons] at *
    exact ih (pushReq_inv hI (hrs r (List.mem_cons_self r rest)))
      fun r' h => hrs r' (List.mem_cons_of_mem _ h)

theorem enqueueAll_mu (used : List String) (m : List (String × Component))
    (s : RState) (rs : List String) :
    muR used m (enqueueAll s rs) = muR used m s := by
  induction rs generalizing s with
  | nil => simp [enqueueAll]
  | cons r rest ih =>
    simp only [enqueueAll, List.foldl_cons] at *
    rw [ih (pushReq s r), pushReq_mu]

theorem enqueueAll_of_subset {s : RState} {rs : List String}
    (h : ∀ r ∈ rs, r ∈ s.resolved) : enqueueAll s rs = s := by
  induction rs with
  | nil => rfl
  | cons r rest ih =>
    simp only [enqueueAll, List.foldl_cons] at *
    rw [pushReq, if_pos (h r (List.mem_cons_self r rest))]
    exact ih fun r' h' => h r' (List.mem_cons_of_mem _ h')

/-! ## Preservation, measure decrease and termination of the loop -/

theorem resolved_length_le {used : List String}
    {m : List (String × Component)} {s : RState} (hI : RInv used m s) :
    s.resolved.length ≤ (used ++ allReqNames m).toFinset.card := by
  rw [← List.toFinset_card_of_nodup hI.nodup]
  apply Finset.card_le_card
  intro x hx
  rw [List.mem_toFinset] at hx ⊢
  exact hI.resolved_sub x hx

theorem stepResolve_inv {used : List String} {m : List (String × Component)}
    {s : RState} (hI : RInv used m s) : RInv used m (stepResolve m s) := by
  unfold stepResolve
  cases hq : s.queue with
  | nil => exact hI
  | cons currentName rest =>
    apply enqueueAll_inv
    · constructor
      · exact hI.nodup
      · intro x hx
        exact hI.queue_sub x (hq ▸ List.mem_cons_of_mem _ hx)
      · exact hI.resolved_sub
    · intro r hr
      exact List.mem_append_right _ (getReqs_subset_allReqNames hr)

theorem stepResolve_mu {used : List String} {m : List (String × Component)}
    {s : RState} (hne : s.queue ≠ []) :
    muR used m (stepResolve m s) = muR used m s - 1 := by
  unfold stepResolve
  cases hq : s.queue with
  | nil => exact absurd hq hne
  | cons currentName rest =>
    rw [enqueueAll_mu]
    unfold muR
    simp only [hq]
    simp [List.length_cons]
    ring

theorem muR_nonneg_queue {used : List String} {m : List (String × Component)}
    {s : RState} (hI : RInv used m s) : (s.queue.length : ℤ) ≤ muR used m s := by
  unfold muR
  have := resolved_length_le hI
  omega

theorem stepResolve_fixpoint {m : List (String × Component)} {s : RState}
    (h : s.queue = []) : stepResolve m s = s := by
  unfold stepResolve
  rw [h]

theorem iterate_fixpoint {m : List (String × Component)} {s : RState}
    (h : s.queue = []) (n : Nat) : (stepResolve m)^[n] s = s := by
  induction n with
  | zero => rfl
  | succ k ih => rw [Function.iterate_succ_apply, stepResolve_fixpoint h, ih]

theorem resolve_terminates_aux (used : List String)
    (m : List (String × Component)) :
    ∀ (k : Nat) (s : RState), RInv used m s → muR used m s ≤ k →
      ((stepResolve m)^[k] s).queue = [] := by
  intro k
  induction k with
  | zero =>
    intro s hI hmu
    have hq := muR_nonneg_queue hI
    have : s.queue.length = 0 := by omega
    simpa using List.length_eq_zero.mp this
  | succ k ih =>
    intro s hI hmu
    cases hq : s.queue with
    | nil => rw [iterate_fixpoint hq]; exact hq
    | cons c rest =>
      rw [Function.iterate_succ_apply]
      apply ih _ (stepResolve_inv hI)
      rw [stepResolve_mu (by simp [hq])]
      omega

theorem initResolveState_inv (used : List String)
    (m : List (String × Component)) :
    RInv used m (initResolveState used) := by
  constructor
  · exact jsSetOf_nodup used
  · intro x hx
    exact (mem_jsSetOf used x).mpr hx
  · intro x hx
    exact List.mem_append_left _ ((mem_jsSetOf used x).mp hx)

theorem initResolveState_mu (used : List String)
    (m : List (String × Component)) :
    muR used m (initResolveState used) ≤ resolveFuel used m := by
  unfold muR initResolveState resolveFuel
  have h1 : (used ++ allReqNames m).toFinset.card ≤
      used.length + (allReqNames m).length := by
    calc (used ++ allReqNames m).toFinset.card
        ≤ (used ++ allReqNames m).length := List.toFinset_card_le _
      _ = used.length + (allReqNames m).length := List.length_append _ _
  simp only
  push_cast
  omega

/-- The fuel given to `resolveAllDependencies` outlasts the `while` loop:
after `resolveFuel` iterations the queue is empty, i.e. the loop has
genuinely finished and further iterations change nothing. -/
theorem resolve_fuel_sufficient (used : List String)
    (m : List (String × Component)) :
    ((stepResolve m)^[resolveFuel used m] (initResolveState used)).queue = [] :=
  resolve_terminates_aux used m (resolveFuel used m) (initResolveState used)
    (initResolveState_inv used m) (initResolveState_mu used m)

/-! ## Monotonicity and closedness of the final resolved set -/

theorem stepResolve_resolved_mono {m : List (String × Component)} {s : RState}
    {x : String} (h : x ∈ s.resolved) : x ∈ (stepResolve m s).resolved := by
  unfold stepResolve
  cases s.queue with
  | nil => exact h
  | cons c rest => exact enqueueAll_resolved_mono h

theorem iterate_resolved_mono {m : List (String × Component)} {s : RState}
    {x : String} (n : Nat) (h : x ∈ s.resolved) :
    x ∈ ((stepResolve m)^[n] s).resolved := by
  induction n generalizing s with
  | zero => exact h
  | succ k ih =>
    rw [Function.iterate_succ_apply]
    exact ih (stepResolve_resolved_mono h)

/-- Second invariant of the loop: every resolved name is either still
waiting in the queue, or its requirement list has been fully folded into
`resolved` already. -/
def RClosed (m : List (String × Component)) (s : RState) : Prop :=
  ∀ y ∈ s.resolved, y ∈ s.queue ∨ ∀ x ∈ getReqs m y, x ∈ s.resolved

theorem initResolveState_closed (used : List String)
    (m : List (String × Component)) : RClosed m (initResolveState used) := by
  intro y hy
  exact Or.inl ((mem_jsSetOf used y).mp hy)

theorem stepResolve_closed {m : List (String × Component)} {s : RState}
    (hC : RClosed m s) : RClosed m (stepResolve m s) := by
  unfold stepResolve
  cases hq : s.queue with
  | nil => simpa [RClosed, hq] using hC
  | cons currentName rest =>
    intro y hy
    rcases enqueueAll_resolved_cases hy with hy' | hy'
    · rcases hC y hy' with hq' | hcl
      · rw [hq] at hq'
        rcases List.mem_cons.mp hq' with rfl | hq''
        · exact Or.inr fun x hx => enqueueAll_mem_resolved hx
        · exact Or.inl (enqueueAll_queue_mono hq'')
      · exact Or.inr fun x hx => enqueueAll_resolved_mono (hcl x hx)
    · exact Or.inl hy'

theorem iterate_closed {m : List (String × Component)} {s : RState}
    (hC : RClosed m s) (n : Nat) : RClosed m ((stepResolve m)^[n] s) := by
  induction n generalizing s with
  | zero => exact hC
  | succ k ih =>
    rw [Function.iterate_succ_apply]
    exact ih (stepResolve_closed hC)

/-- The set returned by `resolveAllDependencies` is closed under
requirement traversal: following the `requires` edges of any member leads
only to members. -/
theorem resolveAllDependencies_closed (used : List String)
    (m : List (String × Component)) :
    ∀ y ∈ resolveAllDependencies used m,
      ∀ x ∈ getReqs m y, x ∈ resolveAllDependencies used m := by
  intro y hy x hx
  have hC := iterate_closed (initResolveState_closed used m)
    (resolveFuel used m)
  rcases hC y hy with hq | hcl
  · rw [resolve_fuel_sufficient used m] at hq
    simp at hq
  · exact hcl x hx

theorem resolveAllDependencies_nodup (used : List String)
    (m : List (String × Component)) :
    (resolveAllDependencies used m).Nodup := by
  have hI : RInv used m ((stepResolve m)^[resolveFuel used m]
      (initResolveState used)) := by
    have h0 := initResolveState_inv used m
    generalize initResolveState used = s at h0 ⊢
    induction resolveFuel used m generalizing s with
    | zero => exact h0
    | succ k ih =>
      rw [Function.iterate_succ_apply]
      exact ih _ (stepResolve_inv h0)
  exact hI.nodup

/-- Running the loop from a seed whose members all have their requirements
inside the seed never grows `resolved`. -/
theorem iterate_of_closed_seed {m : List (String × Component)}
    {R : List String} (hcl : ∀ y ∈ R, ∀ x ∈ getReqs m y, x ∈ R) :
    ∀ (n : Nat) (q : List String), (∀ y ∈ q, y ∈ R) →
      ((stepResolve m)^[n] ⟨R, q⟩).resolved = R := by
  intro n
  induction n with
  | zero => intro q _; rfl
  | succ k ih =>
    intro q hq
    rw [Function.iterate_succ_apply]
    cases hqq : q with
    | nil => rw [stepResolve_fixpoint (by simp [hqq])]; exact ih [] (by simp)
    | cons c rest =>
      subst hqq
      have hstep : stepResolve m ⟨R, c :: rest⟩ = ⟨R, rest⟩ := by
        unfold stepResolve
        simp only
        exact enqueueAll_of_subset fun r hr =>
          hcl c (hq c (List.mem_cons_self c rest)) r hr
      rw [hstep]
      exact ih rest fun y hy => hq y (List.mem_cons_of_mem _ hy)

/-! ## Claims C1–C3: termination, monotonicity, idempotence -/

/-- C1: for every finite used-component set and component lookup table the
`resolveAllDependencies` loop terminates (its queue empties after finitely
many iterations), even on cyclic or diamond-shaped requirement graphs; on
the cycle `a→b→a` resolving from `{a}` yields exactly `{a,b}`, and on the
diamond `hero→{button,image}`, `button→icon`, `image→icon` resolving from
`{hero}` yields exactly `{hero,button,image,icon}`. -/
theorem resolveAllDependencies_terminates_cycle_diamond :
    (∀ (used : List String) (m : List (String × Component)),
      ∃ n, ((stepResolve m)^[n] (initResolveState used)).queue = []) ∧
    (resolveAllDependencies ["a"] cycleMap).toFinset = {"a", "b"} ∧
    (resolveAllDependencies ["hero"] diamondMap).toFinset =
      {"hero", "button", "image", "icon"} :=
  ⟨fun used m => ⟨resolveFuel used m, resolve_fuel_sufficient used m⟩,
    by decide, by decide⟩

/-- C2: the resolved set always contains the used set, and a required name
absent from the lookup table is still added to the result (resolving
`{hero}` where `hero` requires `missing` yields `{hero,missing}`); the
function is total, so no input raises. -/
theorem resolveAllDependencies_superset_dangling :
    (∀ (used : List String) (m : List (String × Component)),
      ∀ x ∈ used, x ∈ resolveAllDependencies used m) ∧
    (resolveAllDependencies ["hero"] danglingMap).toFinset =
      {"hero", "missing"} := by
  constructor
  · intro used m x hx
    exact iterate_resolved_mono _ ((mem_jsSetOf used x).mpr hx)
  · decide

/-- Witness for C2 at a concrete input. -/
theorem resolveAllDependencies_superset_dangling_witness :
    "hero" ∈ resolveAllDependencies ["hero"] danglingMap :=
  resolveAllDependencies_superset_dangling.1 ["hero"] danglingMap "hero"
    (by decide)

/-- C3: `resolveAllDependencies` is idempotent — feeding its own output
back in as the used set returns the same set (the transitive closure is a
fixed point). -/
theorem resolveAllDependencies_idempotent :
    ∀ (used : List String) (m : List (String × Component)),
      resolveAllDependencies (resolveAllDependencies used m) m =
        resolveAllDependencies used m := by
  intro used m
  have hnd : (resolveAllDependencies used m).Nodup :=
    resolveAllDependencies_nodup used m
  have hcl := resolveAllDependencies_closed used m
  have hinit : initResolveState (resolveAllDependencies used m) =
      ⟨resolveAllDependencies used m, resolveAllDependencies used m⟩ := by
    unfold initResolveState
    rw [jsSetOf_eq_self hnd]
  have hrun : resolveAllDependencies (resolveAllDependencies used m) m =
      ((stepResolve m)^[resolveFuel (resolveAllDependencies used m) m]
        (initResolveState (resolveAllDependencies used m))).resolved := rfl
  rw [hrun, hinit]
  exact iterate_of_closed_seed hcl _ _ fun y hy => hy

/-! ## The requirement validator (`requirement-validator.js`) -/

/-- The error template literal of `validateRequirements`
(`requirement-validator.js` lines 27–29). -/
def reqErrorMsg (name required : String) : String :=
  s!"Component \"{name}\" requires \"{required}\" which was not found"

/-- `validateRequirements` (`requirement-validator.js` lines 18–35):
`componentMap.forEach` over the table's values, pushing one error per
requirement name with no entry in the table. -/
def validateRequirements (componentMap : List (String × Component)) :
    List String :=
  componentMap.foldl
    (fun errors p =>
      (reqList p.2).foldl
        (fun errs required =>
          if (mapGet componentMap required).isNone then
            errs ++ [reqErrorMsg p.2.name required]
          else errs)
        errors)
    []

theorem validateRequirements_inner (componentMap : List (String × Component))
    (nm : String) :
    ∀ (rs : List String) (errs : List String),
      rs.foldl
        (fun errs required =>
          if (mapGet componentMap required).isNone then
            errs ++ [reqErrorMsg nm required]
          else errs)
        errs =
      errs ++ (rs.filter fun r => (mapGet componentMap r).isNone).map
        (reqErrorMsg nm) := by
  intro rs
  induction rs with
  | nil => simp
  | cons r rest ih =>
    intro errs
    simp only [List.foldl_cons]
    by_cases hr : (mapGet componentMap r).isNone
    · rw [if_pos hr, ih, List.filter_cons_of_pos (by simpa using hr)]
      simp
    · rw [if_neg hr, ih, List.filter_cons_of_neg (by simpa using hr)]

theorem validateRequirements_outer (componentMap : List (String × Component)) :
    ∀ (l : List (String × Component)) (acc : List String),
      l.foldl
        (fun errors p =>
          (reqList p.2).foldl
            (fun errs required =>
              if (mapGet componentMap required).isNone then
                errs ++ [reqErrorMsg p.2.name required]
              else errs)
            errors)
        acc =
      acc ++ (l.map fun p =>
        ((reqList p.2).filter fun r => (mapGet componentMap r).isNone).map
          (reqErrorMsg p.2.name)).flatten := by
  intro l
  induction l with
  | nil => simp
  | cons p rest ih =>
    intro acc
    simp only [List.foldl_cons, List.map_cons, List.flatten_cons]
    rw [validateRequirements_inner, ih]
    simp

/-! ## Claim C4: the requirement validator's output -/

/-- C4: `validateRequirements` emits one error of the code's
`Component "X" requires "Y" which was not found` form per pair of a
component in the table and a requirement name with no table entry, it is
empty exactly when every requirement resolves, and on the table where only
`hero` requires the absent `missing` it reports exactly that one error. -/
theorem validateRequirements_spec :
    (∀ componentMap : List (String × Component),
      validateRequirements componentMap =
        (componentMap.map fun p =>
          ((reqList p.2).filter fun r => (mapGet componentMap r).isNone).map
            (reqErrorMsg p.2.name)).flatten) ∧
    (∀ componentMap : List (String × Component),
      validateRequirements componentMap = [] ↔
        ∀ p ∈ componentMap, ∀ r ∈ reqList p.2,
          (mapGet componentMap r).isSome) ∧
    validateRequirements danglingMap = [reqErrorMsg "hero" "missing"] := by
  refine ⟨fun componentMap => ?_, fun componentMap => ?_, by decide⟩
  · unfold validateRequirements
    rw [validateRequirements_outer]
    simp
  · unfold validateRequirements
    rw [validateRequirements_outer]
    simp only [List.nil_append, List.flatten_eq_nil_iff, List.mem_map,
      forall_exists_index, and_imp, forall_apply_eq_imp_iff₂,
      List.map_eq_nil_iff, List.filter_eq_nil_iff]
    constructor
    · intro h p hp r hr
      have := h p hp r hr
      simpa [Option.isNone_iff_eq_none, Option.isSome_iff_ne_none] using this
    · intro h p hp r hr
      have := h p hp r hr
      simpa [Option.isNone_iff_eq_none, Option.isSome_iff_ne_none] using this

/-- Witness for C4: on the complete diamond table every requirement
resolves, so the validator reports nothing. -/
theorem validateRequirements_spec_witness :
    validateRequirements diamondMap = [] :=
  (validateRequirements_spec.2.1 diamondMap).mpr (by decide)

/-! ## Claim C5: lookup-table construction (`createComponentMap`) -/

/-- The error template literal of `createComponentMap`
(`component-discovery.js` line 118). -/
def dupErrorMsg (name : String) : String :=
  s!"Duplicate component name: {name}"

/-- The body of `createComponentMap`'s `forEach` (`component-discovery.js`
lines 116–121), with `throw` modelled as `Except.error`: inserting into an
accumulated map fails the moment the name is already present. -/
def createComponentMapAux :
    List (String × Component) → List Component →
      Except String (List (String × Component))
  | componentMap, [] => Except.ok componentMap
  | componentMap, component :: rest =>
    if (mapGet componentMap component.name).isSome then
      Except.error (dupErrorMsg component.name)
    else
      createComponentMapAux (componentMap ++ [(component.name, component)]) rest

/-- `createComponentMap` (`component-discovery.js` lines 113–124). -/
def createComponentMap (components : List Component) :
    Except String (List (String × Component)) :=
  createComponentMapAux [] components

theorem mapGet_eq_none_iff {α : Type} {m : List (String × α)} {k : String} :
    mapGet m k = none ↔ k ∉ m.map Prod.fst := by
  induction m with
  | nil => simp [mapGet]
  | cons p rest ih =>
    obtain ⟨k', v'⟩ := p
    by_cases hk : k' = k
    · subst hk
      simp [mapGet]
    · simp [mapGet, hk, ih, Ne.symm hk]

theorem createComponentMapAux_ok :
    ∀ (components : List Component) (m : List (String × Component)),
      ((m.map Prod.fst) ++ components.map Component.name).Nodup →
      createComponentMapAux m components =
        Except.ok (m ++ components.map fun c => (c.name, c)) := by
  intro components
  induction components with
  | nil => intro m _; simp [createComponentMapAux]
  | cons c rest ih =>
    intro m hnd
    simp only [List.map_cons] at hnd
    have hnd0 := hnd
    rw [List.nodup_middle] at hnd0
    rcases List.nodup_cons.mp hnd0 with ⟨hnotin, hnd'⟩
    have hget : mapGet m c.name = none :=
      mapGet_eq_none_iff.mpr fun h => hnotin (List.mem_append_left _ h)
    rw [createComponentMapAux, if_neg (by simp [hget])]
    have hnd'' : (((m ++ [(c.name, c)]).map Prod.fst) ++
        rest.map Component.name).Nodup := by
      simpa using hnd
    rw [ih _ hnd'']
    simp

theorem createComponentMapAux_error :
    ∀ (components : List Component) (m : List (String × Component)),
      (m.map Prod.fst).Nodup →
      ¬ ((m.map Prod.fst) ++ components.map Component.name).Nodup →
      ∃ nm, createComponentMapAux m components = Except.error (dupErrorMsg nm) ∧
        1 < ((m.map Prod.fst) ++ components.map Component.name).count nm := by
  intro components
  induction components with
  | nil =>
    intro m hm hbad
    exact absurd (by simpa using hm) hbad
  | cons c rest ih =>
    intro m hm hbad
    by_cases hdup : (mapGet m c.name).isSome
    · refine ⟨c.name, by rw [createComponentMapAux, if_pos hdup], ?_⟩
      have hmem : c.name ∈ m.map Prod.fst := by
        by_contra h
        rw [← mapGet_eq_none_iff] at h
        simp [h] at hdup
      have h1 : 1 ≤ (m.map Prod.fst).count c.name :=
        List.one_le_count_iff.mpr hmem
      have h2 : 1 ≤ ((c :: rest).map Component.name).count c.name := by
        simp [List.count_cons]
      rw [List.count_append]
      omega
    · have hget : mapGet m c.name = none := by
        simpa [Option.isNone_iff_eq_none] using hdup
      have hnotin : c.name ∉ m.map Prod.fst := mapGet_eq_none_iff.mp hget
      have hm' : ((m ++ [(c.name, c)]).map Prod.fst).Nodup := by
        rw [List.map_append]
        refine List.Nodup.append hm (by simp) ?_
        intro x hx hx'
        simp only [List.map_cons, List.map_nil, List.mem_singleton] at hx'
        subst hx'
        exact hnotin hx
      have hbad' : ¬ (((m ++ [(c.name, c)]).map Prod.fst) ++
          rest.map Component.name).Nodup := by
        intro h
        apply hbad
        simpa [List.map_cons, List.nodup_middle] using h
      obtain ⟨nm, heq, hcount⟩ := ih (m ++ [(c.name, c)]) hm' hbad'
      refine ⟨nm, ?_, ?_⟩
      · rw [createComponentMapAux, if_neg (by simp [hget])]
        exact heq
      · have : ((m ++ [(c.name, c)]).map Prod.fst) ++
            rest.map Component.name =
            (m.map Prod.fst) ++ ((c :: rest).map Component.name) := by
          simp
        rwa [this] at hcount

theorem mapGet_build (components : List Component)
    (h : (components.map Component.name).Nodup) :
    ∀ c ∈ components,
      mapGet (components.map fun c => (c.name, c)) c.name = some c := by
  induction components with
  | nil => simp
  | cons c0 rest ih =>
    intro c hc
    rw [List.map_cons, List.nodup_cons] at h
    rcases h with ⟨hnotin, hnd⟩
    rcases List.mem_cons.mp hc with rfl | hc'
    · simp [mapGet]
    · have hne : c0.name ≠ c.name := by
        intro he
        exact hnotin (he ▸ List.mem_map_of_mem Component.name hc')
      simp only [List.map_cons, mapGet, if_neg hne]
      exact ih hnd c hc'

/-- C5: building the lookup table from a component sequence with two
equally named components fails with a duplicate-name error naming the
duplicated component (raised at the insertion of the second copy, since
`createComponentMapAux` stops at the first already-seen name); from a
sequence with pairwise-distinct names it succeeds and maps every name to
its component. -/
theorem createComponentMap_spec :
    ∀ components : List Component,
      ((components.map Component.name).Nodup →
        createComponentMap components =
          Except.ok (components.map fun c => (c.name, c)) ∧
        ∀ c ∈ components,
          mapGet (components.map fun c => (c.name, c)) c.name = some c) ∧
      (¬ (components.map Component.name).Nodup →
        ∃ nm, createComponentMap components = Except.error (dupErrorMsg nm) ∧
          1 < (components.map Component.name).count nm) := by
  intro components
  constructor
  · intro h
    constructor
    · unfold createComponentMap
      rw [createComponentMapAux_ok components [] (by simpa using h)]
      simp
    · exact mapGet_build components h
  · intro h
    obtain ⟨nm, heq, hc⟩ := createComponentMapAux_error components []
      (by simp) (by simpa using h)
    exact ⟨nm, heq, by simpa using hc⟩

/-- Witness for C5: two components both named `button`. -/
theorem createComponentMap_spec_witness :
    ∃ nm,
      createComponentMap [{ name := "button" },
        { name := "button", requires := some ["icon"] }] =
        Except.error (dupErrorMsg nm) ∧
      1 < (([{ name := "button" },
        { name := "button", requires := some ["icon"] }] :
          List Component).map Component.name).count nm :=
  (createComponentMap_spec _).2 (by decide)

/-! ## Claim C10: the resolver does not mutate its arguments

The two functions of `dependency-resolver.js` are re-embedded as
transformers of a world that couples the caller-owned arguments with the
functions' own locals.  Every statement of the source either reads the
arguments (`componentMap.get`, the initial copies `new Set(usedComponents)`
and `[...usedComponents]`, `allComponents.filter`) or writes the locals
(`resolved.add`, `queue.push`, `queue.shift`), so each loop iteration
leaves the argument fields of the world untouched; the theorem checks this
for every iteration count, and that the values computed by the threaded
versions agree with the pure ones. -/

/-- The caller-owned arguments of `resolveAllDependencies`. -/
structure ResolverArgs where
  usedComponents : List String
  componentMap : List (String × Component)
deriving DecidableEq, Repr

/-- Caller arguments plus the loop locals of `resolveAllDependencies`. -/
structure ResolverWorld where
  args : ResolverArgs
  locals : RState
deriving DecidableEq, Repr

/-- One `while` iteration acting on the whole world: it reads
`args.componentMap` and reassigns only `locals`. -/
def stepResolveW (w : ResolverWorld) : ResolverWorld :=
  match w.locals.queue with
  | [] => w
  | currentName :: rest =>
    { w with
      locals := enqueueAll ⟨w.locals.resolved, rest⟩
        (getReqs w.args.componentMap currentName) }

/-- `resolveAllDependencies` threaded through the world: returns the
computed set together with the caller arguments as the call leaves them. -/
def resolveAllDependenciesW (args : ResolverArgs) :
    List String × ResolverArgs :=
  let final := stepResolveW^[resolveFuel args.usedComponents args.componentMap]
    ⟨args, initResolveState args.usedComponents⟩
  (final.locals.resolved, final.args)

/-- The caller-owned arguments of `filterNeededComponents`. -/
structure FilterArgs where
  allComponents : List Component
  neededComponents : List String
deriving DecidableEq, Repr

/-- `filterNeededComponents` threaded through its arguments: builds the
output sequence by `Array.prototype.filter`, which allocates a fresh
array, and leaves the inputs as they are. -/
def filterNeededComponentsW (args : FilterArgs) :
    List Component × FilterArgs :=
  (args.allComponents.filter
      fun component => component.name ∈ args.neededComponents,
    args)

theorem stepResolveW_args (w : ResolverWorld) :
    (stepResolveW w).args = w.args := by
  unfold stepResolveW
  cases w.locals.queue <;> rfl

theorem stepResolveW_locals (w : ResolverWorld) :
    (stepResolveW w).locals = stepResolve w.args.componentMap w.locals := by
  unfold stepResolveW stepResolve
  cases w.locals.queue <;> rfl

theorem iterate_stepResolveW_args (args : ResolverArgs) (s : RState) :
    ∀ n : Nat, (stepResolveW^[n] ⟨args, s⟩).args = args := by
  intro n
  induction n generalizing s with
  | zero => rfl
  | succ k ih =>
    rw [Function.iterate_succ_apply]
    have h : stepResolveW ⟨args, s⟩ =
        ⟨args, stepResolve args.componentMap s⟩ := by
      have h1 := stepResolveW_args ⟨args, s⟩
      have h2 := stepResolveW_locals ⟨args, s⟩
      cases hW : stepResolveW ⟨args, s⟩
      rw [hW] at h1 h2
      simp only at h1 h2
      rw [h1, h2]
    rw [h]
    exact ih (stepResolve args.componentMap s)

theorem iterate_stepResolveW_locals (args : ResolverArgs) (s : RState) :
    ∀ n : Nat, (stepResolveW^[n] ⟨args, s⟩).locals =
      (stepResolve args.componentMap)^[n] s := by
  intro n
  induction n generalizing s with
  | zero => rfl
  | succ k ih =>
    rw [Function.iterate_succ_apply, Function.iterate_succ_apply]
    have h : stepResolveW ⟨args, s⟩ =
        ⟨args, stepResolve args.componentMap s⟩ := by
      have h1 := stepResolveW_args ⟨args, s⟩
      have h2 := stepResolveW_locals ⟨args, s⟩
      cases hW : stepResolveW ⟨args, s⟩
      rw [hW] at h1 h2
      simp only at h1 h2
      rw [h1, h2]
    rw [h]
    exact ih (stepResolve args.componentMap s)

/-- C10: `resolveAllDependencies` and `filterNeededComponents` do not
mutate their arguments.  In the world-threaded embedding the caller-owned
argument fields (the used set, the component table with every component's
`requires`/`dependencies` lists, and the component sequence) come back
unchanged after any number of loop iterations and after each whole call,
while the returned values coincide with the pure functions;
`filterNeededComponents` returns a freshly built `filter` of its input
sequence rather than modifying it in place. -/
theorem resolver_does_not_mutate_arguments :
    (∀ (args : ResolverArgs) (s : RState) (n : Nat),
      (stepResolveW^[n] ⟨args, s⟩).args = args) ∧
    (∀ args : ResolverArgs,
      (resolveAllDependenciesW args).2 = args ∧
      (resolveAllDependenciesW args).1 =
        resolveAllDependencies args.usedComponents args.componentMap) ∧
    (∀ args : FilterArgs,
      (filterNeededComponentsW args).2 = args ∧
      (filterNeededComponentsW args).1 =
        filterNeededComponents args.allComponents args.neededComponents) := by
  refine ⟨fun args s n => iterate_stepResolveW_args args s n,
    fun args => ⟨?_, ?_⟩, fun args => ⟨rfl, rfl⟩⟩
  · exact iterate_stepResolveW_args args _ _
  · show (stepResolveW^[resolveFuel args.usedComponents args.componentMap]
      ⟨args, initResolveState args.usedComponents⟩).locals.resolved = _
    rw [iterate_stepResolveW_locals]
    rfl

/-! ## A model of dynamically typed JavaScript values

Page data, manifests parsed from JSON and validation inputs are arbitrary
JS values.  `undef` is JS `undefined` (distinct from `null`); numbers are
modelled as integers (no claim involves fractional values or `NaN`
arithmetic). -/

/-- A dynamically typed JavaScript value. -/
inductive JValue where
  | undef
  | null
  | bool (b : Bool)
  | num (n : Int)
  | str (s : String)
  | arr (elems : List JValue)
  | obj (fields : List (String × JValue))
deriving Repr

mutual

/-- Structural equality of JS values, modelling `===` on the JSON-like data
the validator compares (for primitives `===` is exactly this; the identity
semantics of `===` on distinct-but-equal objects is not needed by any
claim). -/
def jsEq : JValue → JValue → Bool
  | JValue.undef, JValue.undef => true
  | .null, .null => true
  | .bool a, .bool b => a == b
  | .num a, .num b => a == b
  | .str a, .str b => a == b
  | .arr xs, .arr ys => jsEqList xs ys
  | .obj xs, .obj ys => jsEqFields xs ys
  | _, _ => false

def jsEqList : List JValue → List JValue → Bool
  | [], [] => true
  | x :: xs, y :: ys => jsEq x y && jsEqList xs ys
  | _, _ => false

def jsEqFields : List (String × JValue) → List (String × JValue) → Bool
  | [], [] => true
  | (k, v) :: xs, (k', v') :: ys => k == k' && jsEq v v' && jsEqFields xs ys
  | _, _ => false

end

mutual

theorem jsEq_iff : ∀ (a b : JValue), jsEq a b = true ↔ a = b
  | JValue.undef, b => by cases b <;> simp [jsEq]
  | .null, b => by cases b <;> simp [jsEq]
  | .bool a, b => by cases b <;> simp [jsEq]
  | .num a, b => by cases b <;> simp [jsEq]
  | .str a, b => by cases b <;> simp [jsEq]
  | .arr xs, b => by
    cases b <;> simp [jsEq]
    exact jsEqList_iff xs _
  | .obj xs, b => by
    cases b <;> simp [jsEq]
    exact jsEqFields_iff xs _

theorem jsEqList_iff : ∀ (xs ys : List JValue), jsEqList xs ys = true ↔ xs = ys
  | [], ys => by cases ys <;> simp [jsEqList]
  | x :: xs, ys => by
    cases ys with
    | nil => simp [jsEqList]
    | cons y ys =>
      simp [jsEqList, Bool.and_eq_true, jsEq_iff x y, jsEqList_iff xs ys]

theorem jsEqFields_iff : ∀ (xs ys : List (String × JValue)),
    jsEqFields xs ys = true ↔ xs = ys
  | [], ys => by cases ys <;> simp [jsEqFields]
  | (k, v) :: xs, ys => by
    cases ys with
    | nil => simp [jsEqFields]
    | cons p ys =>
      obtain ⟨k', v'⟩ := p
      simp [jsEqFields, Bool.and_eq_true, jsEq_iff v v', jsEqFields_iff xs ys]

end

instance : DecidableEq JValue := fun a b => decidable_of_iff _ (jsEq_iff a b)

/-- JS truthiness: `undefined`, `null`, `false`, `0` and `""` are falsy;
every array and object (including empty ones) is truthy. -/
def truthy : JValue → Bool
  | JValue.undef => false
  | .null => false
  | .bool b => b
  | .num n => n != 0
  | .str s => s != ""
  | .arr _ => true
  | .obj _ => true

/-- The `typeof` operator; note `typeof null === 'object'` and that arrays
are `'object'` too. -/
def typeofJS : JValue → String
  | JValue.undef => "undefined"
  | .null => "object"
  | .bool _ => "boolean"
  | .num _ => "number"
  | .str _ => "string"
  | .arr _ => "object"
  | .obj _ => "object"

/-- `Array.isArray`. -/
def isArr : JValue → Bool
  | .arr _ => true
  | _ => false

/-- Property lookup in an object's field list (first match; objects built
by the code have unique keys). -/
def getFieldList : List (String × JValue) → String → JValue
  | [], _ => JValue.undef
  | (k', v) :: rest, k => if k' = k then v else getFieldList rest k

/-- Decimal digits to a number. -/
def digitsToNat (cs : List Char) : Nat :=
  cs.foldl (fun a c => a * 10 + (c.toNat - '0'.toNat)) 0

/-- Canonical array-index property names: `"0"`, `"1"`, … (no leading
zeros). -/
def jsIndex? (s : String) : Option Nat :=
  match s.toList with
  | [] => none
  | ['0'] => some 0
  | c :: cs =>
    if c ≠ '0' && (c :: cs).all Char.isDigit then some (digitsToNat (c :: cs))
    else none

/-- `value[key]`: object field, array index/`length`, `undefined`
otherwise (primitive property lookups never occur unguarded in the
embedded code). -/
def getField : JValue → String → JValue
  | .obj fields, k => getFieldList fields k
  | .arr elems, k =>
    (match jsIndex? k with
     | some i => elems.getD i JValue.undef
     | none => if k = "length" then .num elems.length else JValue.undef)
  | _, _ => JValue.undef

/-- The `key in value` operator on objects and arrays. -/
def hasKey : JValue → String → Bool
  | .obj fields, k => decide (k ∈ fields.map Prod.fst)
  | .arr elems, k =>
    (match jsIndex? k with
     | some i => decide (i < elems.length)
     | none => decide (k = "length"))
  | _, _ => false

/-- `String.prototype.split` with a one-character separator, on the
character list (`"".split(x)` is `[""]`, separators at the ends produce
empty segments, exactly as in JS). -/
def splitOnChar (sep : Char) : List Char → List (List Char)
  | [] => [[]]
  | c :: rest =>
    match splitOnChar sep rest with
    | [] => [[]]
    | g :: gs => if c = sep then [] :: g :: gs else (c :: g) :: gs

/-- `s.split(sep)` for a one-character separator. -/
def jsSplit (s : String) (sep : Char) : List String :=
  (splitOnChar sep s.toList).map String.mk

/-- `String.prototype.endsWith`. -/
def jsEndsWith (s suffixStr : String) : Bool :=
  suffixStr.toList.isSuffixOf s.toList

/-- `getNestedProperty` (`validation.js` lines 37–48): split the dot path
and reduce, returning `undefined` as soon as the current value is not a
truthy object. -/
def getNestedProperty (o : JValue) (path : String) : JValue :=
  if !(truthy o && typeofJS o == "object") then JValue.undef
  else
    (jsSplit path '.').foldl
      (fun current key =>
        if truthy current && typeofJS current == "object" then
          getField current key
        else JValue.undef)
      o

/-- The key-by-key loop of `hasNestedProperty` (`validation.js` lines
76–92). -/
def hasNestedAux : JValue → List String → Bool
  | _, [] => true
  | current, key :: rest =>
    if truthy current && typeofJS current == "object" && hasKey current key then
      hasNestedAux (getField current key) rest
    else false

/-- `hasNestedProperty` (`validation.js` lines 76–92): existence only —
a `null`-valued terminal key still counts as present. -/
def hasNestedProperty (o : JValue) (path : String) : Bool :=
  if !(truthy o && typeofJS o == "object") then false
  else hasNestedAux o (jsSplit path '.')

mutual

/-- `String(value)` as used by the error-message template literals;
objects print as `[object Object]`, arrays join their elements with commas
(`null`/`undefined` elements print as the empty string). -/
def jsToString : JValue → String
  | JValue.undef => "undefined"
  | .null => "null"
  | .bool b => cond b "true" "false"
  | .num n => toString n
  | .str s => s
  | .arr elems => jsToStringArr elems
  | .obj _ => "[object Object]"

def jsToStringArr : List JValue → String
  | [] => ""
  | [x] => jsToStringElem x
  | x :: xs => jsToStringElem x ++ "," ++ jsToStringArr xs

/-- An element under `Array.prototype.join`: `null` and `undefined`
become the empty string. -/
def jsToStringElem : JValue → String
  | JValue.undef => ""
  | .null => ""
  | v => jsToString v

end

/-! ## The section/data validator (`validation.js`)

Validation rules come from manifests (JSON), so they are modelled as a
typed inductive: each field is an `Option`, `none` standing for an absent
(or `null`, hence falsy) field. -/

/-- A validation rule (`validation.js` `ValidationRule` typedef): `rtype`,
`rconst`, `renum`, `ritems`, `rprops` embed the JS fields `type`, `const`,
`enum`, `items`, `properties`. -/
inductive VRule where
  | mk (rtype : Option String) (rconst : Option JValue)
      (renum : Option (List JValue)) (ritems : Option VRule)
      (rprops : Option (List (String × VRule)))

def VRule.rtype : VRule → Option String
  | .mk t _ _ _ _ => t

def VRule.rconst : VRule → Option JValue
  | .mk _ c _ _ _ => c

def VRule.renum : VRule → Option (List JValue)
  | .mk _ _ e _ _ => e

def VRule.ritems : VRule → Option VRule
  | .mk _ _ _ i _ => i

def VRule.rprops : VRule → Option (List (String × VRule))
  | .mk _ _ _ _ p => p

/-- JS whitespace for `Number(string)` trimming (the common subset; exotic
Unicode spaces are not needed by any claim). -/
def isJsWs (c : Char) : Bool :=
  c = ' ' || c = '\t' || c = '\n' || c = '\r'

/-- Decimal recognizer for the body of a numeric string: `digits`,
`digits.digits`, `digits.` or `.digits`. -/
def isNumericCore (cs : List Char) : Bool :=
  let intPart := cs.takeWhile Char.isDigit
  let rest := cs.dropWhile Char.isDigit
  match rest with
  | [] => !intPart.isEmpty
  | '.' :: frac => (!intPart.isEmpty || !frac.isEmpty) && frac.all Char.isDigit
  | _ => false

/-- `!isNaN(Number(s))` for strings, modelling `Number`'s grammar on signed
decimals and the whitespace-only case (`Number("") === 0`); hexadecimal and
exponent forms are omitted, none being needed by any claim. -/
def isNumericString (s : String) : Bool :=
  let t := (s.toList.dropWhile isJsWs).reverse.dropWhile isJsWs |>.reverse
  match t with
  | [] => true
  | '+' :: cs => isNumericCore cs
  | '-' :: cs => isNumericCore cs
  | cs => isNumericCore cs

/-- The `commonMisspellings` table of `generateTip` (`validation.js` lines
112–121): all three entries carry the same replacement text. -/
def headingTip (s : String) : Option String :=
  if s.toLower = "header" || s.toLower = "heading" || s.toLower = "title" then
    some s!"Use h1, h2, h3, h4, h5, or h6 instead of \"{s}\"."
  else none

/-- `generateTip` (`validation.js` lines 99–126): three sequential
heuristics, the first match winning. -/
def generateTip (value : JValue) (rule : VRule) : Option String :=
  let tip1 : Option String :=
    match rule.rtype, value with
    | some "boolean", .str s =>
      if s.toLower = "false" || s.toLower = "true" then
        some s!"String \"{s}\" evaluates to true in templates. Use boolean {s.toLower} instead."
      else none
    | _, _ => none
  match tip1 with
  | some t => some t
  | none =>
    let tip2 : Option String :=
      match rule.rtype, value with
      | some "number", .str s =>
        if isNumericString s then
          some s!"String \"{s}\" should be a number. Remove quotes: {s}"
        else none
      | _, _ => none
    match tip2 with
    | some t => some t
    | none =>
      match rule.renum, value with
      | some es, .str s => if JValue.str "h1" ∈ es then headingTip s else none
      | _, _ => none

/-- A `ValidationResult`: `{valid: true}` or `{valid: false, error}`. -/
structure VResult where
  valid : Bool
  error : Option String := none
deriving DecidableEq, Repr

/-- `${tip ? `\nTip: ${tip}` : ''}`. -/
def tipSuffix : Option String → String
  | some t => "\nTip: " ++ t
  | none => ""

/-- `!rule.type`: absent or empty-string (falsy) type constraint. -/
def typeIsAbsent : Option String → Bool
  | none => true
  | some t => t = ""

/-- `validateTypeConstraint` (`validation.js` lines 135–153). -/
def validateTypeConstraint (value : JValue) (rule : VRule)
    (propertyPath : String) : VResult :=
  if typeIsAbsent rule.rtype then ⟨true, none⟩
  else
    let t := rule.rtype.getD ""
    let actualType := if isArr value then "array" else typeofJS value
    if actualType ≠ t then
      ⟨false, some (s!"{propertyPath}: expected {t}, got {actualType} \"{jsToString value}\"" ++
        tipSuffix (generateTip value rule))⟩
    else ⟨true, none⟩

/-- `validateConstConstraint` (`validation.js` lines 162–174); `value !==
rule.const` is structural here, see `jsEq`. -/
def validateConstConstraint (value : JValue) (rule : VRule)
    (propertyPath : String) : VResult :=
  match rule.rconst with
  | none => ⟨true, none⟩
  | some c =>
    if value ≠ c then
      ⟨false, some s!"{propertyPath}: expected \"{jsToString c}\", got \"{jsToString value}\""⟩
    else ⟨true, none⟩

/-- `validateEnumConstraint` (`validation.js` lines 183–197). -/
def validateEnumConstraint (value : JValue) (rule : VRule)
    (propertyPath : String) : VResult :=
  match rule.renum with
  | none => ⟨true, none⟩
  | some es =>
    if value ∈ es then ⟨true, none⟩
    else
      let opts := String.intercalate ", " (es.map jsToStringElem)
      ⟨false, some (s!"{propertyPath}: \"{jsToString value}\" is invalid. Must be one of: {opts}" ++
        tipSuffix (generateTip value rule))⟩

/-- `rule.items.type || rule.items.enum || rule.items.const !== undefined`
(`validation.js` line 221): an empty `enum` array is truthy, an empty
`type` string is not. -/
def itemsHasDirect (r : VRule) : Bool :=
  !(typeIsAbsent r.rtype) || r.renum.isSome || r.rconst.isSome

mutual

/-- `validateProperty` (`validation.js` lines 240–267): absent
(`undefined`/`null`) values are always valid; otherwise the type, const,
enum and array-items constraints run in order, the first failure
short-circuiting. -/
def validateProperty (value : JValue) (rule : VRule)
    (propertyPath : String) : VResult :=
  match value with
  | JValue.undef => ⟨true, none⟩
  | .null => ⟨true, none⟩
  | _ =>
    let typeResult := validateTypeConstraint value rule propertyPath
    if !typeResult.valid then typeResult
    else
      let constResult := validateConstConstraint value rule propertyPath
      if !constResult.valid then constResult
      else
        let enumResult := validateEnumConstraint value rule propertyPath
        if !enumResult.valid then enumResult
        else
          let arrayResult := validateArrayItems value rule propertyPath
          if !arrayResult.valid then arrayResult
          else ⟨true, none⟩
termination_by (sizeOf rule, 3, 0)

/-- `validateArrayItems` (`validation.js` lines 206–230): a no-op unless
the rule is an array rule with `items` and the value is an array. -/
def validateArrayItems (value : JValue) (rule : VRule)
    (propertyPath : String) : VResult :=
  match rule with
  | .mk t _ _ items _ =>
    if t ≠ some "array" then ⟨true, none⟩
    else
      match items, value with
      | some itemsRule, .arr elems =>
        validateItemsLoop elems 0 itemsRule propertyPath
      | _, _ => ⟨true, none⟩
termination_by (sizeOf rule, 2, 0)

/-- The indexed `for` loop of `validateArrayItems`: item paths are
`path[i]`, nested `items.properties` run before a direct
`items.type`/`enum`/`const` rule. -/
def validateItemsLoop (elems : List JValue) (i : Nat) (itemsRule : VRule)
    (propertyPath : String) : VResult :=
  match elems with
  | [] => ⟨true, none⟩
  | item :: rest =>
    let itemPath := s!"{propertyPath}[{i}]"
    let propRes :=
      match itemsRule with
      | .mk _ _ _ _ (some props) => validateObjectProperties item props itemPath
      | _ => ⟨true, none⟩
    if !propRes.valid then propRes
    else
      let directRes :=
        if itemsHasDirect itemsRule then validateProperty item itemsRule itemPath
        else ⟨true, none⟩
      if !directRes.valid then directRes
      else validateItemsLoop rest (i + 1) itemsRule propertyPath
termination_by (sizeOf itemsRule, 4, sizeOf elems)

/-- `validateObjectProperties` (`validation.js` lines 276–289): apply
`validateProperty` to every declared rule, prefixing `basePath`, first
failure short-circuiting. -/
def validateObjectProperties (o : JValue) (props : List (String × VRule))
    (basePath : String) : VResult :=
  match props with
  | [] => ⟨true, none⟩
  | (propertyPath, rule) :: rest =>
    let fullPath := if basePath ≠ "" then s!"{basePath}.{propertyPath}" else propertyPath
    let value := getNestedProperty o propertyPath
    let result := validateProperty value rule fullPath
    if !result.valid then result
    else validateObjectProperties o rest basePath
termination_by (sizeOf props, 3, 0)

end

/-- A `ValidationConfig` (`validation.js` typedef): optional `required`
paths and optional property rules. -/
structure VConfig where
  required : Option (List String) := none
  properties : Option (List (String × VRule)) := none

/-- `validateRequiredProperties` (`validation.js` lines 296–308):
existence check via `hasNestedProperty`, first missing path failing. -/
def validateRequiredProperties (o : JValue) (required : List String) : VResult :=
  match required with
  | [] => ⟨true, none⟩
  | path :: rest =>
    if !(hasNestedProperty o path) then
      ⟨false, some s!"{path}: required property is missing"⟩
    else validateRequiredProperties o rest

/-- `context ? `${context}\n  ` : ''`. -/
def contextPrefix (context : String) : String :=
  if context ≠ "" then context ++ "\n  " else ""

/-- `validateSection` (`validation.js` lines 317–346), `sectionData` being
the JS parameter `section`: required-properties check, then property
rules, failures prefixed with the context line.  A falsy/non-object
validation config is the `none` case. -/
def validateSection (sectionData : JValue) (validation : Option VConfig)
    (context : String) : VResult :=
  match validation with
  | none => ⟨true, none⟩
  | some cfg =>
    let requiredResult :=
      match cfg.required with
      | some req => validateRequiredProperties sectionData req
      | none => ⟨true, none⟩
    if !requiredResult.valid then
      ⟨false, some (contextPrefix context ++ requiredResult.error.getD "")⟩
    else
      let propertiesResult :=
        match cfg.properties with
        | some props => validateObjectProperties sectionData props ""
        | none => ⟨true, none⟩
      if !propertiesResult.valid then
        ⟨false, some (contextPrefix context ++ propertiesResult.error.getD "")⟩
      else ⟨true, none⟩

/-- The component manifest as `validateSections` consumes it: only its
`validation` field is read (`!manifest || !manifest.validation` skips). -/
structure SectionManifest where
  validation : Option VConfig := none

/-- A structured `ValidationError` pushed by `validateSections`
(`validation.js` lines 381–388). -/
structure SectionError where
  propertyPath : String
  message : String
  value : JValue
  sectionType : JValue
  sectionIndex : Nat
  fileName : String

/-- `validateSections` (`validation.js` lines 356–401), `sectionData`
being the JS variable `section`: iterate the sections by index, skipping
falsy and non-object entries and entries with a falsy `sectionType`; a
manifest accessor failure (`getManifest` throwing, the `Except.error`
case) is caught and only warned about; components without validation
config are skipped; real failures become structured errors. -/
def validateSections (sections : JValue)
    (getManifest : JValue → Except String SectionManifest)
    (fileName : String) : List SectionError :=
  match sections with
  | .arr secs =>
    secs.enum.foldl
      (fun errors p =>
        let index := p.1
        let sectionData := p.2
        if !(truthy sectionData) then errors
        else if typeofJS sectionData ≠ "object" then errors
        else
          let sectionType := getField sectionData "sectionType"
          if !(truthy sectionType) then errors
          else
            match getManifest sectionType with
            | .error _ => errors
            | .ok manifest =>
              match manifest.validation with
              | none => errors
              | some validation =>
                let context :=
                  if fileName ≠ "" then
                    s!"Section {index} ({jsToString sectionType}) in {fileName}:"
                  else
                    s!"Section {index} ({jsToString sectionType}):"
                let result := validateSection sectionData (some validation) context
                if result.valid then errors
                else
                  errors ++ [⟨s!"sections[{index}]", result.error.getD "",
                    sectionData, sectionType, index, fileName⟩])
      []
  | _ => []

/-! ## Claims C6 and C7 -/

/-- C7: a property value that is absent (`undefined` or `null`) validates
against every rule — any combination of type, const, enum and items
constraints — at every property path. -/
theorem validateProperty_absent_always_valid :
    (∀ (rule : VRule) (propertyPath : String),
      validateProperty JValue.undef rule propertyPath = ⟨true, none⟩) ∧
    (∀ (rule : VRule) (propertyPath : String),
      validateProperty JValue.null rule propertyPath = ⟨true, none⟩) := by
  constructor
  · intro rule propertyPath
    simp [validateProperty]
  · intro rule propertyPath
    simp [validateProperty]

/-- C6: `validateSections` never raises.  On the sections list
`[null, {sectionType:'x'}, {no:'type'}]` with a manifest accessor that
throws, it returns no errors (the `null` and type-less entries are
skipped, the accessor failure for `'x'` is caught and only warned about);
in general, with an accessor that throws for every type, the error list is
empty for every input — a lookup failure never propagates and never
becomes a validation error. -/
theorem validateSections_never_raises :
    validateSections
      (JValue.arr [JValue.null,
        JValue.obj [("sectionType", JValue.str "x")],
        JValue.obj [("no", JValue.str "type")]])
      (fun t => Except.error s!"Component \"{jsToString t}\" not found")
      "" = [] ∧
    (∀ (sections : JValue) (fileName : String) (msg : JValue → String),
      validateSections sections (fun t => Except.error (msg t)) fileName = []) := by
  constructor
  · rfl
  · intro sections fileName msg
    match sections with
    | .arr secs =>
      show List.foldl _ [] secs.enum = []
      generalize secs.enum = l
      induction l with
      | nil => rfl
      | cons p rest ih =>
        simp only [List.foldl_cons]
        split
        · exact ih
        · split
          · exact ih
          · split
            · exact ih
            · exact ih
    | JValue.undef => rfl
    | .null => rfl
    | .bool b => rfl
    | .num n => rfl
    | .str s => rfl
    | .obj fields => rfl

/-! ## The template/usage scanner (`template-parser.js`)

The two module-level regular expressions

* `IMPORT_PATTERN`:
  the import-from tag, quote and whitespace tolerant
* `INCLUDE_PATTERN`:
  the include tag

are embedded as deterministic character-level matchers; each alternation
point of the patterns (`\s*`, `["']`, greedy classes) is forced, because
the character class that follows each run is disjoint from the run's own
class, so the backtracking regex and the committed matcher accept the same
tags with the same captured paths.  The `g`-flag `exec` loop (leftmost,
non-overlapping matches, resuming at each match's end) is `scanTags`. -/

/-- `["']`: either quote mark (a path may open with one and close with the
other, exactly as the character classes allow). -/
def isQuote (c : Char) : Bool := c = '"' || c = '\''

/-- Match a literal character sequence, returning the rest. -/
def matchLit : List Char → List Char → Option (List Char)
  | [], cs => some cs
  | l :: ls, c :: cs => if c = l then matchLit ls cs else none
  | _ :: _, [] => none

/-- One quote character. -/
def matchQuote : List Char → Option (List Char)
  | c :: cs => if isQuote c then some cs else none
  | [] => none

/-- `([^"']+)["']`: the captured path (nonempty, up to the next quote of
either kind) followed by its closing quote. -/
def matchPath (cs : List Char) : Option (String × List Char) :=
  let path := cs.takeWhile fun c => !(isQuote c)
  if path.isEmpty then none
  else
    match matchQuote (cs.dropWhile fun c => !(isQuote c)) with
    | some rest => some (String.mk path, rest)
    | none => none

/-- `\s+[^%]+\s*%\}`: since whitespace is itself a non-`%` character, this
is exactly one whitespace character, a nonempty run of non-`%` characters,
then the literal `%}`. -/
def matchWsBody (cs : List Char) : Option (List Char) :=
  match cs with
  | c :: cs =>
    if isJsWs c then
      let body := cs.takeWhile fun c => c ≠ '%'
      if body.isEmpty then none
      else matchLit ['%', '}'] (cs.dropWhile fun c => c ≠ '%')
    else none
  | [] => none

/-- `IMPORT_PATTERN` at the head of the input: `{%`, optional whitespace,
`from`, optional whitespace, the quoted path, optional whitespace,
`import`, the imported-names body, `%}`. -/
def matchImportAt (cs : List Char) : Option (String × List Char) :=
  (matchLit ['{', '%'] cs).bind fun cs =>
  (matchLit "from".toList (cs.dropWhile isJsWs)).bind fun cs =>
  (matchQuote (cs.dropWhile isJsWs)).bind fun cs =>
  (matchPath cs).bind fun pr =>
  (matchLit "import".toList (pr.2.dropWhile isJsWs)).bind fun cs =>
  (matchWsBody cs).map fun cs => (pr.1, cs)

/-- `INCLUDE_PATTERN` at the head of the input: `{%`, optional whitespace,
`include`, optional whitespace, the quoted path, optional whitespace,
`%}`. -/
def matchIncludeAt (cs : List Char) : Option (String × List Char) :=
  (matchLit ['{', '%'] cs).bind fun cs =>
  (matchLit "include".toList (cs.dropWhile isJsWs)).bind fun cs =>
  (matchQuote (cs.dropWhile isJsWs)).bind fun cs =>
  (matchPath cs).bind fun pr =>
  (matchLit ['%', '}'] (pr.2.dropWhile isJsWs)).map fun cs => (pr.1, cs)

/-- The `while ((match = PATTERN.exec(content)) !== null)` loop: leftmost
non-overlapping matches, each search resuming after the previous match.
The fuel (the input length) outlasts the loop because every match consumes
at least the two characters `{%`. -/
def scanTags (matcher : List Char → Option (String × List Char)) :
    Nat → List Char → List String
  | 0, _ => []
  | _ + 1, [] => []
  | n + 1, c :: cs =>
    match matcher (c :: cs) with
    | some (path, rest) => path :: scanTags matcher n rest
    | none => scanTags matcher n cs

/-- The indexed `for` loop of `extractComponentName`: the segment after
the first marker segment that has a successor; a marker in final position
does not return, the loop just ends. -/
def extractComponentNameAux (componentDirs : List String) :
    List String → Option String
  | [] => none
  | seg :: rest =>
    if seg ∈ componentDirs then
      match rest with
      | next :: _ => some next
      | [] => none
    else extractComponentNameAux componentDirs rest

/-- `extractComponentName` (`template-parser.js` lines 40–55). -/
def extractComponentName (importPath : String) (componentDirs : List String) :
    Option String :=
  extractComponentNameAux componentDirs (jsSplit importPath '/')

/-- `Set.prototype.add` for strings. -/
def addStr (s : List String) (x : String) : List String :=
  if x ∈ s then s else s ++ [x]

/-- The shared body of the two `while`/`exec` loops of
`parseTemplateFile`: each matched path contributes its extracted component
name when that name is truthy (`if (componentName)` — `null` and the empty
string contribute nothing). -/
def collectNames (componentDirs : List String) (paths : List String)
    (acc : List String) : List String :=
  paths.foldl
    (fun acc p =>
      match extractComponentName p componentDirs with
      | some name => if name ≠ "" then addStr acc name else acc
      | none => acc)
    acc

/-- `parseTemplateFile` (`template-parser.js` lines 64–91): the import
matches feed the set first, then the include matches. -/
def parseTemplateFile (fileContent : String) (componentDirs : List String) :
    List String :=
  let imports := scanTags matchImportAt fileContent.length fileContent.toList
  let includes := scanTags matchIncludeAt fileContent.length fileContent.toList
  collectNames componentDirs includes (collectNames componentDirs imports [])

/-- A Metalsmith page file as `detectUsedComponents` reads it: an optional
frontmatter `sections` value (any JS value; `undef` when absent) and
optional textual `contents` (`none` for a missing/falsy contents field;
`Buffer` versus string is immaterial once decoded). -/
structure PageFile where
  sections : JValue := JValue.undef
  contents : Option String := none

/-- A node of the layout directory tree on disk, for `scanLayoutFiles`
(the filesystem walk itself is host I/O; the tree is passed in). -/
inductive FsEntry where
  | file (name : String) (contents : String)
  | dir (name : String) (entries : List FsEntry)

/-- The recursive `scanDirectory` of `scanLayoutFiles`
(`template-parser.js` lines 157–180): depth-first over the entries,
parsing every `.njk` file into the accumulated set. -/
def scanLayoutAux (componentDirs : List String) :
    List FsEntry → List String → List String
  | [], acc => acc
  | .dir _ entries :: rest, acc =>
    scanLayoutAux componentDirs rest (scanLayoutAux componentDirs entries acc)
  | .file nm contents :: rest, acc =>
    if jsEndsWith nm ".njk" then
      scanLayoutAux componentDirs rest
        ((parseTemplateFile contents componentDirs).foldl addStr acc)
    else scanLayoutAux componentDirs rest acc

/-- `Set.prototype.add` on the used-components set (structural equality;
the values added are section types and parsed name strings). -/
def addUsed (s : List JValue) (v : JValue) : List JValue :=
  if v ∈ s then s else s ++ [v]

/-- `section && typeof section === 'object' && section.sectionType`
(`template-parser.js` line 122). -/
def sectionQualifies (sec : JValue) : Bool :=
  truthy sec && typeofJS sec == "object" && truthy (getField sec "sectionType")

/-- The frontmatter `sections.forEach` of `detectUsedComponents`
(`template-parser.js` lines 120–126): every element that is a truthy
object with a truthy `sectionType` contributes that `sectionType`. -/
def addSectionTypes (allUsed : List JValue) (secs : List JValue) :
    List JValue :=
  secs.foldl
    (fun a sec =>
      if sectionQualifies sec then addUsed a (getField sec "sectionType")
      else a)
    allUsed

/-- `fileComponents.forEach(component => allUsedComponents.add(component))`. -/
def addParsedNames (allUsed : List JValue) (names : List String) :
    List JValue :=
  names.foldl (fun a nm => addUsed a (.str nm)) allUsed

/-- The tag channel of one file (`template-parser.js` lines 128–141):
falsy contents (absent or the empty string) contribute nothing, otherwise
the parsed template's names join the set. -/
def processContents (componentDirs : List String) (allUsed : List JValue) :
    Option String → List JValue
  | none => allUsed
  | some content =>
    if content = "" then allUsed
    else addParsedNames allUsed (parseTemplateFile content componentDirs)

/-- The per-file body of `Object.keys(files).forEach` in
`detectUsedComponents` (`template-parser.js` lines 110–141): only `.njk`
and `.html` files are processed; their `sections` array feeds the
frontmatter channel, then the contents feed the tag channel. -/
def processPageFile (componentDirs : List String) (allUsed : List JValue)
    (fp : String × PageFile) : List JValue :=
  if !(jsEndsWith fp.1 ".njk" || jsEndsWith fp.1 ".html") then allUsed
  else
    processContents componentDirs
      (match fp.2.sections with
       | .arr secs => addSectionTypes allUsed secs
       | _ => allUsed)
      fp.2.contents

/-- `detectUsedComponents` (`template-parser.js` lines 106–150): the page
files feed the set, then the optional layout tree scan does
(`layoutDir = none` models both a `null` layout directory and a missing
one — each contributes nothing). -/
def detectUsedComponents (files : List (String × PageFile))
    (componentDirs : List String) (layoutDir : Option (List FsEntry)) :
    List JValue :=
  let allUsedComponents := files.foldl (processPageFile componentDirs) []
  match layoutDir with
  | none => allUsedComponents
  | some entries =>
    addParsedNames allUsedComponents (scanLayoutAux componentDirs entries [])

/-! ## Claim C8: the frontmatter detection channel -/

theorem addUsed_mem (s : List JValue) (v : JValue) : v ∈ addUsed s v := by
  unfold addUsed
  split
  · assumption
  · simp

theorem addUsed_mono {s : List JValue} {v x : JValue} (h : x ∈ s) :
    x ∈ addUsed s v := by
  unfold addUsed
  split
  · exact h
  · simp [h]

theorem addSectionTypes_mono {secs : List JValue} {acc : List JValue}
    {x : JValue} (h : x ∈ acc) : x ∈ addSectionTypes acc secs := by
  induction secs generalizing acc with
  | nil => simpa [addSectionTypes]
  | cons sec rest ih =>
    simp only [addSectionTypes, List.foldl_cons] at *
    by_cases hq : sectionQualifies sec
    · rw [if_pos hq]
      exact ih (addUsed_mono h)
    · rw [if_neg hq]
      exact ih h

theorem addSectionTypes_mem {secs : List JValue} {acc : List JValue}
    {sec : JValue} (hsec : sec ∈ secs) (hq : sectionQualifies sec = true) :
    getField sec "sectionType" ∈ addSectionTypes acc secs := by
  induction secs generalizing acc with
  | nil => simp at hsec
  | cons s0 rest ih =>
    simp only [addSectionTypes, List.foldl_cons] at *
    rcases List.mem_cons.mp hsec with rfl | hsec'
    · rw [if_pos hq]
      exact addSectionTypes_mono (addUsed_mem acc _)
    · split
      · exact ih hsec'
      · exact ih hsec'

theorem addParsedNames_mono {names : List String} {acc : List JValue}
    {x : JValue} (h : x ∈ acc) : x ∈ addParsedNames acc names := by
  induction names generalizing acc with
  | nil => simpa [addParsedNames]
  | cons nm rest ih =>
    simp only [addParsedNames, List.foldl_cons] at *
    exact ih (addUsed_mono h)

theorem processContents_mono {componentDirs : List String}
    {acc : List JValue} {contents : Option String} {x : JValue} (h : x ∈ acc) :
    x ∈ processContents componentDirs acc contents := by
  unfold processContents
  split
  · exact h
  · split
    · exact h
    · exact addParsedNames_mono h

theorem processPageFile_mono {componentDirs : List String}
    {acc : List JValue} {fp : String × PageFile} {x : JValue} (h : x ∈ acc) :
    x ∈ processPageFile componentDirs acc fp := by
  unfold processPageFile
  split
  · exact h
  · apply processContents_mono
    split
    · exact addSectionTypes_mono h
    · exact h

theorem foldl_processPageFile_mono {componentDirs : List String}
    {x : JValue} :
    ∀ (files : List (String × PageFile)) (acc : List JValue), x ∈ acc →
      x ∈ files.foldl (processPageFile componentDirs) acc := by
  intro files
  induction files with
  | nil => intro acc h; simpa
  | cons fp rest ih =>
    intro acc h
    simp only [List.foldl_cons]
    exact ih _ (processPageFile_mono h)

theorem processPageFile_mem {componentDirs : List String}
    {acc : List JValue} {filepath : String} {file : PageFile}
    {secs : List JValue} {sec : JValue}
    (hext : jsEndsWith filepath ".njk" = true ∨
      jsEndsWith filepath ".html" = true)
    (hsections : file.sections = JValue.arr secs)
    (hsec : sec ∈ secs) (hq : sectionQualifies sec = true) :
    getField sec "sectionType" ∈
      processPageFile componentDirs acc (filepath, file) := by
  unfold processPageFile
  have hcond : (!(jsEndsWith filepath ".njk" || jsEndsWith filepath ".html")) =
      false := by
    rcases hext with h | h <;> simp [h]
  simp only [hcond, Bool.false_eq_true, if_false, hsections]
  exact processContents_mono (addSectionTypes_mem hsec hq)

theorem addSectionTypes_filter (acc : List JValue) (secs : List JValue) :
    addSectionTypes acc (secs.filter sectionQualifies) =
      addSectionTypes acc secs := by
  induction secs generalizing acc with
  | nil => rfl
  | cons sec rest ih =>
    by_cases hq : sectionQualifies sec
    · rw [List.filter_cons_of_pos hq]
      simp only [addSectionTypes, List.foldl_cons, if_pos hq] at *
      exact ih _
    · rw [List.filter_cons_of_neg hq]
      simp only [addSectionTypes, List.foldl_cons,
        if_neg hq] at *
      exact ih _

theorem processPageFile_filter (componentDirs : List String)
    (acc : List JValue) (filepath : String) (file : PageFile)
    (secs : List JValue) (hsections : file.sections = JValue.arr secs) :
    processPageFile componentDirs acc
      (filepath,
        { file with sections := JValue.arr (secs.filter sectionQualifies) }) =
      processPageFile componentDirs acc (filepath, file) := by
  unfold processPageFile
  simp only [hsections, addSectionTypes_filter]

theorem detectUsedComponents_filter (filesBefore filesAfter :
      List (String × PageFile)) (componentDirs : List String)
    (layoutDir : Option (List FsEntry)) (filepath : String) (file : PageFile)
    (secs : List JValue) (hsections : file.sections = JValue.arr secs) :
    detectUsedComponents
      (filesBefore ++ (filepath,
        { file with sections := JValue.arr (secs.filter sectionQualifies) }) ::
          filesAfter)
      componentDirs layoutDir =
    detectUsedComponents (filesBefore ++ (filepath, file) :: filesAfter)
      componentDirs layoutDir := by
  unfold detectUsedComponents
  rw [List.foldl_append, List.foldl_append, List.foldl_cons, List.foldl_cons,
    processPageFile_filter componentDirs _ filepath file secs hsections]

/-- C8 counterexample: the frontmatter channel runs only for files whose
name ends in `.njk` or `.html`.  A file map whose one page `page.txt`
carries `sections: [{sectionType:'hero'}]` yields the empty used set, so
`hero` is not contributed, contradicting the claim as stated (which
quantifies over every page file in the input file map). -/
theorem detectUsedComponents_skips_non_template_files :
    JValue.str "hero" ∉
      detectUsedComponents
        [("page.txt",
          { sections :=
              JValue.arr [JValue.obj [("sectionType", JValue.str "hero")]],
            contents := none })]
        ["_partials", "sections"] none := by
  decide

/-- C8 as amended: for every page file **whose name ends in `.njk` or
`.html`** that carries a `sections` array, each element that is a truthy
object with a truthy `sectionType` contributes that `sectionType` to the
returned set; and elements that do not qualify contribute nothing (and
raise nothing): dropping them from the `sections` array leaves the result
unchanged. -/
theorem detectUsedComponents_frontmatter_channel :
    (∀ (files : List (String × PageFile)) (componentDirs : List String)
        (layoutDir : Option (List FsEntry)) (filepath : String)
        (file : PageFile) (secs : List JValue) (sec : JValue),
      (filepath, file) ∈ files →
      (jsEndsWith filepath ".njk" = true ∨
        jsEndsWith filepath ".html" = true) →
      file.sections = JValue.arr secs →
      sec ∈ secs →
      sectionQualifies sec = true →
      getField sec "sectionType" ∈
        detectUsedComponents files componentDirs layoutDir) ∧
    (∀ (filesBefore filesAfter : List (String × PageFile))
        (componentDirs : List String) (layoutDir : Option (List FsEntry))
        (filepath : String) (file : PageFile) (secs : List JValue),
      file.sections = JValue.arr secs →
      detectUsedComponents
        (filesBefore ++ (filepath,
          { file with
            sections := JValue.arr (secs.filter sectionQualifies) }) ::
            filesAfter)
        componentDirs layoutDir =
      detectUsedComponents (filesBefore ++ (filepath, file) :: filesAfter)
        componentDirs layoutDir) := by
  constructor
  · intro files componentDirs layoutDir filepath file secs sec hfile hext
      hsections hsec hq
    obtain ⟨pre, post, rfl⟩ := List.append_of_mem hfile
    unfold detectUsedComponents
    have hmem : getField sec "sectionType" ∈
        (pre ++ (filepath, file) :: post).foldl
          (processPageFile componentDirs) [] := by
      rw [List.foldl_append, List.foldl_cons]
      exact foldl_processPageFile_mono post _
        (processPageFile_mem hext hsections hsec hq)
    match layoutDir with
    | none => exact hmem
    | some entries => exact addParsedNames_mono hmem
  · exact fun fb fa cd ld fp f secs h =>
      detectUsedComponents_filter fb fa cd ld fp f secs h

/-- Witness for C8 (amended) at a concrete input: an `.njk` page whose
`sections` array mixes a qualifying entry with `null` and a type-less
object. -/
theorem detectUsedComponents_frontmatter_channel_witness :
    JValue.str "hero" ∈
      detectUsedComponents
        [("index.njk",
          { sections :=
              JValue.arr [JValue.null,
                JValue.obj [("sectionType", JValue.str "hero")],
                JValue.obj [("no", JValue.str "type")]],
            contents := none })]
        ["_partials", "sections"] none := by
  have h := detectUsedComponents_frontmatter_channel.1
    [("index.njk",
      { sections :=
          JValue.arr [JValue.null,
            JValue.obj [("sectionType", JValue.str "hero")],
            JValue.obj [("no", JValue.str "type")]],
        contents := none })]
    ["_partials", "sections"] none "index.njk"
    { sections :=
        JValue.arr [JValue.null,
          JValue.obj [("sectionType", JValue.str "hero")],
          JValue.obj [("no", JValue.str "type")]],
      contents := none }
    [JValue.null, JValue.obj [("sectionType", JValue.str "hero")],
      JValue.obj [("no", JValue.str "type")]]
    (JValue.obj [("sectionType", JValue.str "hero")])
    (List.mem_singleton.mpr rfl) (Or.inl (by decide)) rfl (by decide)
    (by decide)
  exact h

/-! ## Claim C9: `loadComponent` (`component-discovery.js`) -/

/-- `a || b` on JS values. -/
def jsOr (a b : JValue) : JValue := if truthy a then a else b

/-- A key set in an object literal after a spread: overwrites the value in
place when the key exists, appends otherwise (the ECMAScript property
order of `{...manifest, k: v}`). -/
def upsertField : List (String × JValue) → String → JValue →
    List (String × JValue)
  | [], k, v => [(k, v)]
  | (k', v') :: rest, k, v =>
    if k' = k then (k', v) :: rest else (k', v') :: upsertField rest k v

/-- `loadComponent` (`component-discovery.js` lines 57–87) from the
manifest acquisition onward: the `manifest.json` read and `JSON.parse`
(and the `autoGenerateManifest` fallback) are host I/O, so the embedding
takes the already-parsed `manifest` value — the claim quantifies over
successfully parsed manifests.  A manifest with a falsy `name` logs and
returns `null` (`none` here); otherwise the result is
`{...manifest, path, styles: manifest.styles || [], scripts:
manifest.scripts || [], dependencies: manifest.dependencies || []}` —
the spread of the manifest, then the four literal keys in order. -/
def loadComponent (manifest : JValue)
    (componentPath componentName : String) : Option JValue :=
  if !(truthy (getField manifest "name")) then none
  else
    let base :=
      match manifest with
      | .obj fields => fields
      | _ => []
    some (JValue.obj
      (upsertField
        (upsertField
          (upsertField
            (upsertField base "path" (.str componentPath))
            "styles" (jsOr (getField manifest "styles") (.arr [])))
          "scripts" (jsOr (getField manifest "scripts") (.arr [])))
        "dependencies" (jsOr (getField manifest "dependencies") (.arr []))))

theorem getFieldList_upsert_same (l : List (String × JValue)) (k : String)
    (v : JValue) : getFieldList (upsertField l k v) k = v := by
  induction l with
  | nil => simp [upsertField, getFieldList]
  | cons p rest ih =>
    obtain ⟨k', v'⟩ := p
    by_cases hk : k' = k
    · simp [upsertField, hk, getFieldList]
    · simp [upsertField, hk, getFieldList, ih]

theorem getFieldList_upsert_other (l : List (String × JValue))
    {k k' : String} (v : JValue) (h : k ≠ k') :
    getFieldList (upsertField l k v) k' = getFieldList l k' := by
  induction l with
  | nil => simp [upsertField, getFieldList, h]
  | cons p rest ih =>
    obtain ⟨k0, v0⟩ := p
    by_cases hk : k0 = k
    · subst hk
      simp [upsertField, getFieldList, h]
    · by_cases hk' : k0 = k'
      · simp [upsertField, hk, getFieldList, hk', Ne.symm h]
      · simp [upsertField, hk, getFieldList, hk', ih]

/-- C9 counterexample: `loadComponent` on the parsed manifest
`{"name": "hero"}` (which lacks `requires`) returns a component whose
`requires` field is absent (`undefined`), not the empty sequence the claim
promises — the code normalizes `dependencies`, never `requires`. -/
theorem loadComponent_requires_not_normalized :
    ((loadComponent (JValue.obj [("name", JValue.str "hero")]) "p" "hero").map
      fun r => getField r "requires") = some JValue.undef ∧
    JValue.undef ≠ JValue.arr [] := by
  constructor
  · rfl
  · decide

/-- C9 as amended: for every successfully parsed manifest with a truthy
`name`, `loadComponent` returns a component whose `styles`, `scripts` and
**`dependencies`** fields each equal the manifest's field when present and
truthy and the empty sequence otherwise (`manifest.field || []`), whose
`path` is the component directory, and whose `requires` field is **not**
normalized: it is carried over from the manifest unchanged (absent when
the manifest lacks it). -/
theorem loadComponent_normalizes_fields :
    ∀ (manifest : JValue) (componentPath componentName : String),
      truthy (getField manifest "name") = true →
      ∃ r, loadComponent manifest componentPath componentName = some r ∧
        getField r "styles" = jsOr (getField manifest "styles")
          (JValue.arr []) ∧
        getField r "scripts" = jsOr (getField manifest "scripts")
          (JValue.arr []) ∧
        getField r "dependencies" = jsOr (getField manifest "dependencies")
          (JValue.arr []) ∧
        getField r "path" = JValue.str componentPath ∧
        getField r "requires" = getField manifest "requires" ∧
        getField r "name" = getField manifest "name" := by
  intro manifest componentPath componentName hname
  cases manifest with
  | undef => simp [getField, truthy] at hname
  | null => simp [getField, truthy] at hname
  | bool b =>
    have h0 : getField (JValue.bool b) "name" = JValue.undef := rfl
    rw [h0] at hname
    simp [truthy] at hname
  | num n =>
    have h0 : getField (JValue.num n) "name" = JValue.undef := rfl
    rw [h0] at hname
    simp [truthy] at hname
  | str s =>
    have h0 : getField (JValue.str s) "name" = JValue.undef := rfl
    rw [h0] at hname
    simp [truthy] at hname
  | arr elems =>
    have h0 : getField (JValue.arr elems) "name" = JValue.undef := rfl
    rw [h0] at hname
    simp [truthy] at hname
  | obj fields =>
    refine ⟨JValue.obj
      (upsertField
        (upsertField
          (upsertField
            (upsertField fields "path" (.str componentPath))
            "styles" (jsOr (getField (JValue.obj fields) "styles")
              (.arr [])))
          "scripts" (jsOr (getField (JValue.obj fields) "scripts")
            (.arr [])))
        "dependencies" (jsOr (getField (JValue.obj fields) "dependencies")
          (.arr []))), ?_, ?_, ?_, ?_, ?_, ?_, ?_⟩
    · unfold loadComponent
      rw [if_neg (by simp [hname])]
    · show getFieldList (upsertField _ "dependencies" _) "styles" = _
      rw [getFieldList_upsert_other _ _ (by decide),
        getFieldList_upsert_other _ _ (by decide), getFieldList_upsert_same]
    · show getFieldList (upsertField _ "dependencies" _) "scripts" = _
      rw [getFieldList_upsert_other _ _ (by decide), getFieldList_upsert_same]
    · show getFieldList (upsertField _ "dependencies" _) "dependencies" = _
      rw [getFieldList_upsert_same]
    · show getFieldList (upsertField _ "dependencies" _) "path" = _
      rw [getFieldList_upsert_other _ _ (by decide),
        getFieldList_upsert_other _ _ (by decide),
        getFieldList_upsert_other _ _ (by decide), getFieldList_upsert_same]
    · show getFieldList (upsertField _ "dependencies" _) "requires" = _
      rw [getFieldList_upsert_other _ _ (by decide),
        getFieldList_upsert_other _ _ (by decide),
        getFieldList_upsert_other _ _ (by decide),
        getFieldList_upsert_other _ _ (by decide)]
      rfl
    · show getFieldList (upsertField _ "dependencies" _) "name" = _
      rw [getFieldList_upsert_other _ _ (by decide),
        getFieldList_upsert_other _ _ (by decide),
        getFieldList_upsert_other _ _ (by decide),
        getFieldList_upsert_other _ _ (by decide)]
      rfl

/-- Witness for C9 (amended) at a concrete manifest that has `name`,
`styles` and `requires` but no `scripts` and no `dependencies`. -/
theorem loadComponent_normalizes_fields_witness :
    ∃ r, loadComponent
        (JValue.obj [("name", JValue.str "hero"),
          ("styles", JValue.arr [JValue.str "hero.css"]),
          ("requires", JValue.arr [JValue.str "button"])]) "lib/hero" "hero" =
        some r ∧
      getField r "styles" = jsOr (getField
        (JValue.obj [("name", JValue.str "hero"),
          ("styles", JValue.arr [JValue.str "hero.css"]),
          ("requires", JValue.arr [JValue.str "button"])]) "styles")
        (JValue.arr []) ∧
      getField r "scripts" = jsOr (getField
        (JValue.obj [("name", JValue.str "hero"),
          ("styles", JValue.arr [JValue.str "hero.css"]),
          ("requires", JValue.arr [JValue.str "button"])]) "scripts")
        (JValue.arr []) ∧
      getField r "dependencies" = jsOr (getField
        (JValue.obj [("name", JValue.str "hero"),
          ("styles", JValue.arr [JValue.str "hero.css"]),
          ("requires", JValue.arr [JValue.str "button"])]) "dependencies")
        (JValue.arr []) ∧
      getField r "path" = JValue.str "lib/hero" ∧
      getField r "requires" = getField
        (JValue.obj [("name", JValue.str "hero"),
          ("styles", JValue.arr [JValue.str "hero.css"]),
          ("requires", JValue.arr [JValue.str "button"])]) "requires" ∧
      getField r "name" = getField
        (JValue.obj [("name", JValue.str "hero"),
          ("styles", JValue.arr [JValue.str "hero.css"]),
          ("requires", JValue.arr [JValue.str "button"])]) "name" :=
  loadComponent_normalizes_fields
    (JValue.obj [("name", JValue.str "hero"),
      ("styles", JValue.arr [JValue.str "hero.css"]),
      ("requires", JValue.arr [JValue.str "button"])]) "lib/hero" "hero"
    (by decide)
